import Mathlib

/-!
Verification of the gadget-decomposition term layer of an FHE library
(`core_crypto/commons/math/decomposition/term.rs`).

Machine integers of the generic unsigned width `W` are embedded as natural
numbers, with wraparound made explicit by `% 2 ^ W` exactly where the source
type truncates.  The `u128` scratch integers used by the non-native summand
are embedded as plain naturals; the side conditions making every machine
step exact (legal shift amounts, lossless casts, products below `2 ^ 128`)
are stated and proved separately as the overflow-safety development.
-/

/-- Modelled from the spec: `divide_round` (from `core_crypto::algorithms`,
whose source file is not part of this excerpt) computes the round-to-nearest
quotient `round(numerator / denominator)`, ties rounded up, as described in
the design: "the quotient `round(q / B^level)` must be computed with
round-to-nearest (not truncation)". -/
def divide_round (numerator denominator : Nat) : Nat :=
  (numerator + denominator / 2) / denominator

/-- Modelled from the spec: `UnsignedInteger::wrapping_mul_custom_mod`
(numeric trait implementation, not part of this excerpt) performs
"wraparound-safe modular multiplication" modulo the custom modulus, the
product being formed on a widened intermediate so that it is exact. -/
def wrapping_mul_custom_mod (a b q : Nat) : Nat :=
  a * b % q

/-- One digit of a decomposition under the native (power-of-two) modulus:
struct `DecompositionTerm<T>` with fields `level`, `base_log`, `value`. -/
structure DecompositionTerm where
  level : Nat
  base_log : Nat
  value : Nat
  deriving DecidableEq

/-- Package-private constructor `DecompositionTerm::new`. -/
def DecompositionTerm.new (level base_log value : Nat) : DecompositionTerm :=
  { level := level, base_log := base_log, value := value }

/-- Method `DecompositionTerm::to_recomposition_summand`:
`self.value << (T::BITS - self.base_log * self.level)` on the `W`-bit type,
i.e. multiplication by the corresponding power of two with the shifted-out
high bits discarded.  (The source shift panics when the shift amount reaches
`W`; legality under valid configurations is proved separately.) -/
def DecompositionTerm.to_recomposition_summand (W : Nat) (t : DecompositionTerm) : Nat :=
  t.value * 2 ^ (W - t.base_log * t.level) % 2 ^ W

/-- One digit of a decomposition under an arbitrary modulus:
struct `DecompositionTermNonNative<T>`, additionally carrying the
ciphertext modulus (stored as a `u128` quantity in the source). -/
structure DecompositionTermNonNative where
  level : Nat
  base_log : Nat
  value : Nat
  ciphertext_modulus : Nat
  deriving DecidableEq

/-- Package-private constructor `DecompositionTermNonNative::new`. -/
def DecompositionTermNonNative.new (level base_log value ciphertext_modulus : Nat) :
    DecompositionTermNonNative :=
  { level := level, base_log := base_log, value := value,
    ciphertext_modulus := ciphertext_modulus }

/-- Method `DecompositionTermNonNative::to_recomposition_summand`, the
`u128` formulation kept in the source:
`base_to_the_level = 1u128 << (base_log * level)`;
`modulus_over_base_to_level = T::cast_from(divide_round(q, base_to_the_level))`;
result `value.wrapping_mul_custom_mod(modulus_over_base_to_level, T::cast_from(q))`.
The truncating casts `u128 -> T` are the two `% 2 ^ W`. -/
def DecompositionTermNonNative.to_recomposition_summand (W : Nat)
    (t : DecompositionTermNonNative) : Nat :=
  let base_to_the_level := 2 ^ (t.base_log * t.level)
  let modulus_over_base_to_level := divide_round t.ciphertext_modulus base_to_the_level % 2 ^ W
  wrapping_mul_custom_mod t.value modulus_over_base_to_level (t.ciphertext_modulus % 2 ^ W)

/-- The commented-out native-width formulation of the non-native summand
(source lines 154-160): `base_to_the_level = T::ONE << (base_log * level)`
is computed in the `W`-bit type itself, so the shift is legal only for
`base_log * level < W`; `none` embeds the shift-overflow panic. -/
def summandFormulationNativeWidth (W : Nat) (t : DecompositionTermNonNative) : Option Nat :=
  if t.base_log * t.level < W then
    let base_to_the_level := 2 ^ (t.base_log * t.level)
    let ciphertext_modulus_as_t := t.ciphertext_modulus % 2 ^ W
    let modulus_over_base_to_level := divide_round ciphertext_modulus_as_t base_to_the_level
    some (wrapping_mul_custom_mod t.value modulus_over_base_to_level ciphertext_modulus_as_t)
  else none

/-- The retained widened-scratch (`u128`) formulation of the non-native
summand, with its own shift-legality bound `base_log * level < 128`;
`none` embeds the shift-overflow panic of `1u128 << (base_log * level)`. -/
def summandFormulationWidened (W : Nat) (t : DecompositionTermNonNative) : Option Nat :=
  if t.base_log * t.level < 128 then some (t.to_recomposition_summand W) else none

/-- Wraparound representation of a signed digit in the `W`-bit unsigned
type (two's complement storage of balanced digits). -/
def intToWrapped (W : Nat) (d : Int) : Nat :=
  (d % (2 ^ W : Int)).toNat

/-- Modelled from the spec: balanced signed digit extraction of the
decomposition algorithm (the decomposer source files are not part of this
excerpt).  Chunks are taken least significant first; a chunk at or above
`B / 2` becomes the negative digit `chunk - B` and propagates a carry of
`+1` into the next more significant chunk. -/
def balancedDigits (B : Nat) : Nat → Nat → List Int
  | 0, _ => []
  | k + 1, state =>
    let chunk := state % B
    let rest := state / B
    if B / 2 ≤ chunk then ((chunk : Int) - (B : Int)) :: balancedDigits B k (rest + 1)
    else (chunk : Int) :: balancedDigits B k rest

/-- Modelled from the spec: `SignedDecomposer::decompose` (native modulus;
decomposer source not part of this excerpt).  The input is rounded to the
nearest multiple of the step `2 ^ (W - base_log * level_count)` by adding
half the step (wrapping at `2 ^ W`) and truncating, then the retained
chunks are emitted as balanced digits in descending level order
(level `level_count` first). -/
def SignedDecomposer.decompose (W base_log level_count theta : Nat) : List DecompositionTerm :=
  let s := W - base_log * level_count
  let closest := (theta + 2 ^ s / 2) % 2 ^ W / 2 ^ s * 2 ^ s
  let digits := balancedDigits (2 ^ base_log) level_count (closest / 2 ^ s)
  List.zipWith (fun j d => DecompositionTerm.new (level_count - j) base_log (intToWrapped W d))
    (List.range level_count) digits

/-- Modelled from the spec: `SignedDecomposerNonNative::decompose`
(decomposer source not part of this excerpt).  Rounding and chunk
extraction are expressed as rounding divisions over the modulus `q`:
the scaled input `round(theta * B ^ level_count / q)` is extracted into
balanced digits exactly as in the native case. -/
def SignedDecomposerNonNative.decompose (W base_log level_count q theta : Nat) :
    List DecompositionTermNonNative :=
  let theta_hat := divide_round (theta * 2 ^ (base_log * level_count)) q
  let digits := balancedDigits (2 ^ base_log) level_count theta_hat
  List.zipWith
    (fun j d => DecompositionTermNonNative.new (level_count - j) base_log (intToWrapped W d) q)
    (List.range level_count) digits

/-- The round-to-nearest quotient never exceeds the numerator. -/
theorem divide_round_le (q d : Nat) (hd : 1 ≤ d) : divide_round q d ≤ q := by
  have h : divide_round q d < q + 1 := by
    rw [divide_round, Nat.div_lt_iff_lt_mul (by omega)]
    have h1 : q * 1 ≤ q * d := Nat.mul_le_mul (Nat.le_refl q) hd
    have h2 : (q + 1) * d = q * d + d := by ring
    omega
  omega

/-- The quotient produced by `divide_round` is the nearest integer to the
exact ratio: its scaled value is within half a denominator of the numerator. -/
theorem divide_round_near (q d : Nat) (hd : 0 < d) :
    d * divide_round q d ≤ q + d / 2 ∧ q ≤ d * divide_round q d + d / 2 := by
  unfold divide_round
  have h1 := Nat.div_add_mod (q + d / 2) d
  have h2 : (q + d / 2) % d < d := Nat.mod_lt _ hd
  obtain ⟨X, hX⟩ : ∃ X, X = d * ((q + d / 2) / d) := ⟨_, rfl⟩
  rw [← hX] at h1 ⊢
  omega

/-- C1: for a non-native term with `level ≥ 1`, `base_log ≥ 1` and a modulus
`q` representable in `W` bits, `to_recomposition_summand` returns
`value * round(q / B ^ level) mod q` where `B = 2 ^ base_log`: the quotient
is the round-to-nearest one (within half of `B ^ level` of the exact ratio,
as the last two conjuncts state), and the final step is multiplication
modulo `q`. -/
theorem nonNativeSummand_eq_value_mul_round_mod (W : Nat) (t : DecompositionTermNonNative)
    (hl : 1 ≤ t.level) (hb : 1 ≤ t.base_log)
    (hq0 : 0 < t.ciphertext_modulus) (hq : t.ciphertext_modulus < 2 ^ W) :
    t.to_recomposition_summand W =
      t.value * divide_round t.ciphertext_modulus (2 ^ (t.base_log * t.level))
        % t.ciphertext_modulus ∧
    2 ^ (t.base_log * t.level)
        * divide_round t.ciphertext_modulus (2 ^ (t.base_log * t.level))
      ≤ t.ciphertext_modulus + 2 ^ (t.base_log * t.level) / 2 ∧
    t.ciphertext_modulus ≤
      2 ^ (t.base_log * t.level)
          * divide_round t.ciphertext_modulus (2 ^ (t.base_log * t.level))
        + 2 ^ (t.base_log * t.level) / 2 := by
  have hd : 0 < 2 ^ (t.base_log * t.level) := Nat.pos_pow_of_pos _ (by omega)
  have hnear := divide_round_near t.ciphertext_modulus (2 ^ (t.base_log * t.level)) hd
  refine ⟨?_, hnear.1, hnear.2⟩
  simp only [DecompositionTermNonNative.to_recomposition_summand, wrapping_mul_custom_mod]
  rw [Nat.mod_eq_of_lt hq,
    Nat.mod_eq_of_lt (lt_of_le_of_lt (divide_round_le _ _ hd) hq)]

/-- Witness for C1 at the Solinas-prime scenario. -/
theorem nonNativeSummand_eq_value_mul_round_mod_witness :
    (DecompositionTermNonNative.new 1 16 4096 (2 ^ 64 - 2 ^ 32 + 1)).to_recomposition_summand 64 =
      4096 * divide_round (2 ^ 64 - 2 ^ 32 + 1) (2 ^ 16) % (2 ^ 64 - 2 ^ 32 + 1) ∧
    2 ^ 16 * divide_round (2 ^ 64 - 2 ^ 32 + 1) (2 ^ 16)
      ≤ (2 ^ 64 - 2 ^ 32 + 1) + 2 ^ 16 / 2 ∧
    (2 ^ 64 - 2 ^ 32 + 1) ≤
      2 ^ 16 * divide_round (2 ^ 64 - 2 ^ 32 + 1) (2 ^ 16) + 2 ^ 16 / 2 :=
  nonNativeSummand_eq_value_mul_round_mod 64
    (DecompositionTermNonNative.new 1 16 4096 (2 ^ 64 - 2 ^ 32 + 1))
    (by decide) (by decide) (by decide) (by decide)

/-- C2: for a native term with `base_log * level ≤ W`, the summand is the
stored value multiplied (in the `W`-bit ring) by `2 ^ W / B ^ level`, and
that quotient is exact: `B ^ level` times it gives back `2 ^ W`. -/
theorem nativeSummand_eq_value_mul_exact_quotient (W : Nat) (t : DecompositionTerm)
    (h : t.base_log * t.level ≤ W) :
    t.to_recomposition_summand W =
      t.value * (2 ^ W / 2 ^ (t.base_log * t.level)) % 2 ^ W ∧
    2 ^ (t.base_log * t.level) * (2 ^ W / 2 ^ (t.base_log * t.level)) = 2 ^ W := by
  have hp : 2 ^ W / 2 ^ (t.base_log * t.level) = 2 ^ (W - t.base_log * t.level) :=
    Nat.pow_div h (by omega)
  constructor
  · rw [DecompositionTerm.to_recomposition_summand, hp]
  · rw [hp, ← pow_add]
    congr 1
    omega

/-- Witness for C2 at the native doc-test term. -/
theorem nativeSummand_eq_value_mul_exact_quotient_witness :
    (DecompositionTerm.new 3 4 1).to_recomposition_summand 32 =
      1 * (2 ^ 32 / 2 ^ (4 * 3)) % 2 ^ 32 ∧
    2 ^ (4 * 3) * (2 ^ 32 / 2 ^ (4 * 3)) = 2 ^ 32 :=
  nativeSummand_eq_value_mul_exact_quotient 32 (DecompositionTerm.new 3 4 1) (by decide)

/-- C3: under a valid configuration (`base_log ≥ 1`, `level ≥ 1`,
`base_log * level ≤ W ≤ 64`, modulus and value representable in `W` bits,
modulus nonzero) none of the machine steps of either summand overflows or
panics: the native shift amount is a legal shift, the `u128` shift amount
is below 128, the rounding numerator fits in a `u128`, the quotient casts
back to `T` losslessly, the widened product fits in a `u128`, and the
modulus the reduction divides by is nonzero. -/
theorem summand_arithmetic_never_overflows (W b l v q : Nat)
    (hb : 1 ≤ b) (hl : 1 ≤ l) (hbl : b * l ≤ W) (hW : W ≤ 64)
    (hv : v < 2 ^ W) (hq0 : 0 < q) (hq : q < 2 ^ W) :
    W - b * l < W ∧
    b * l < 128 ∧
    q + 2 ^ (b * l) / 2 < 2 ^ 128 ∧
    divide_round q (2 ^ (b * l)) < 2 ^ W ∧
    v * (divide_round q (2 ^ (b * l)) % 2 ^ W) < 2 ^ 128 ∧
    0 < q % 2 ^ W := by
  have hbl1 : 1 ≤ b * l := Nat.one_le_iff_ne_zero.mpr (by positivity)
  have hd : (0 : Nat) < 2 ^ (b * l) := Nat.pos_pow_of_pos _ (by omega)
  have e1 : (2 : Nat) ^ W ≤ 2 ^ 64 := Nat.pow_le_pow_right (by omega) hW
  have e2 : (2 : Nat) ^ (b * l) ≤ 2 ^ W := Nat.pow_le_pow_right (by omega) hbl
  have hrle : divide_round q (2 ^ (b * l)) ≤ q := divide_round_le _ _ hd
  refine ⟨by omega, by omega, by omega, by omega, ?_, ?_⟩
  · have hm : divide_round q (2 ^ (b * l)) % 2 ^ W < 2 ^ W :=
      Nat.mod_lt _ (Nat.pos_pow_of_pos _ (by omega))
    have hp : v * (divide_round q (2 ^ (b * l)) % 2 ^ W) < 2 ^ W * 2 ^ W :=
      Nat.mul_lt_mul_of_lt_of_lt hv hm
    have hsq : (2 : Nat) ^ W * 2 ^ W ≤ 2 ^ 128 := by
      rw [← pow_add]
      exact Nat.pow_le_pow_right (by omega) (by omega)
    omega
  · rw [Nat.mod_eq_of_lt hq]
    exact hq0

/-- Witness for C3 at the stress configuration `W = 64`, `base_log = 16`,
`level = 4`, Solinas modulus, maximal stored value. -/
theorem summand_arithmetic_never_overflows_witness :
    64 - 16 * 4 < 64 ∧
    16 * 4 < 128 ∧
    (2 ^ 64 - 2 ^ 32 + 1) + 2 ^ (16 * 4) / 2 < 2 ^ 128 ∧
    divide_round (2 ^ 64 - 2 ^ 32 + 1) (2 ^ (16 * 4)) < 2 ^ 64 ∧
    (2 ^ 64 - 1) * (divide_round (2 ^ 64 - 2 ^ 32 + 1) (2 ^ (16 * 4)) % 2 ^ 64) < 2 ^ 128 ∧
    0 < (2 ^ 64 - 2 ^ 32 + 1) % 2 ^ 64 :=
  summand_arithmetic_never_overflows 64 16 4 (2 ^ 64 - 1) (2 ^ 64 - 2 ^ 32 + 1)
    (by decide) (by decide) (by decide) (by decide) (by decide) (by decide) (by decide)

/-- C4: the non-native summand is fully reduced: it lies strictly below the
ciphertext modulus for every stored value, level and base_log with
`base_log * level ≤ W`, whenever `0 < q < 2 ^ W`. -/
theorem nonNativeSummand_lt_modulus (W : Nat) (t : DecompositionTermNonNative)
    (hbl : t.base_log * t.level ≤ W)
    (hq0 : 0 < t.ciphertext_modulus) (hq : t.ciphertext_modulus < 2 ^ W) :
    t.to_recomposition_summand W < t.ciphertext_modulus := by
  unfold DecompositionTermNonNative.to_recomposition_summand wrapping_mul_custom_mod
  rw [Nat.mod_eq_of_lt hq]
  exact Nat.mod_lt _ hq0

/-- Witness for C4 at the Solinas-prime scenario. -/
theorem nonNativeSummand_lt_modulus_witness :
    16 * 1 ≤ 64 ∧ 0 < 2 ^ 64 - 2 ^ 32 + 1 ∧ (2 ^ 64 - 2 ^ 32 + 1 : Nat) < 2 ^ 64 ∧
    (DecompositionTermNonNative.new 1 16 4096 (2 ^ 64 - 2 ^ 32 + 1)).to_recomposition_summand 64 <
      2 ^ 64 - 2 ^ 32 + 1 :=
  ⟨by decide, by decide, by decide,
    nonNativeSummand_lt_modulus 64 (DecompositionTermNonNative.new 1 16 4096 (2 ^ 64 - 2 ^ 32 + 1))
      (by decide) (by decide) (by decide)⟩

/-- C5: with `base_log = 16`, `level_count = 1` and the Solinas modulus
`q = 2 ^ 64 - 2 ^ 32 + 1`, decomposing `theta = 2 ^ 60` yields exactly one
term, and its recomposition summand is `1152921504338411520`. -/
theorem nonNative_concrete_scenario :
    (SignedDecomposerNonNative.decompose 64 16 1 (2 ^ 64 - 2 ^ 32 + 1) (2 ^ 60)).length = 1 ∧
    (SignedDecomposerNonNative.decompose 64 16 1 (2 ^ 64 - 2 ^ 32 + 1) (2 ^ 60)).map
      (fun t => t.to_recomposition_summand 64) = [1152921504338411520] := by
  decide

/-- C6: with `base_log = 4`, `level_count = 3` over 32-bit integers,
decomposing `theta = 2 ^ 19` yields a first term whose recomposition
summand is `1048576` and whose stored value is `1`. -/
theorem native_concrete_scenario :
    (SignedDecomposer.decompose 32 4 3 (2 ^ 19)).head?.map
      (fun t => (t.to_recomposition_summand 32, t.value)) = some (1048576, 1) := by
  decide

/-- C7 counterexample: at `base_log * level = W` (allowed by the claim's
premise `base_log * level ≤ W`) the native-width formulation's shift
`T::ONE << (base_log * level)` overflows the `W`-bit type and cannot return
a result, while the widened `u128` formulation does return one, so the two
formulations do not agree on the term with `W = 64`, `level = 1`,
`base_log = 64`, `value = 1`, `q = 2 ^ 64 - 2 ^ 32 + 1`. -/
theorem summandFormulations_differ_at_full_width :
    64 * 1 ≤ 64 ∧ (2 ^ 64 - 2 ^ 32 + 1 : Nat) < 2 ^ 64 ∧
    summandFormulationNativeWidth 64 (DecompositionTermNonNative.new 1 64 1 (2 ^ 64 - 2 ^ 32 + 1)) ≠
      summandFormulationWidened 64 (DecompositionTermNonNative.new 1 64 1 (2 ^ 64 - 2 ^ 32 + 1)) := by
  decide

/-- C7 amended: the native-width and widened-scratch formulations of the
non-native summand agree on every term with `base_log * level` strictly
below `W`, for `W ≤ 128` and a modulus representable in `W` bits; only at
`base_log * level = W`, where the native-width shift overflows, do they
differ. -/
theorem summandFormulations_agree_below_full_width (W : Nat) (t : DecompositionTermNonNative)
    (hbl : t.base_log * t.level < W) (hW : W ≤ 128)
    (hq : t.ciphertext_modulus < 2 ^ W) :
    summandFormulationNativeWidth W t = summandFormulationWidened W t := by
  have hd : (0 : Nat) < 2 ^ (t.base_log * t.level) := Nat.pos_pow_of_pos _ (by omega)
  simp only [summandFormulationNativeWidth, summandFormulationWidened,
    DecompositionTermNonNative.to_recomposition_summand]
  rw [if_pos hbl, if_pos (by omega)]
  rw [Nat.mod_eq_of_lt hq,
    Nat.mod_eq_of_lt (lt_of_le_of_lt (divide_round_le _ _ hd) hq)]

/-- Witness for the amended C7 at the Solinas-prime scenario. -/
theorem summandFormulations_agree_below_full_width_witness :
    summandFormulationNativeWidth 64 (DecompositionTermNonNative.new 1 16 4096 (2 ^ 64 - 2 ^ 32 + 1)) =
      summandFormulationWidened 64 (DecompositionTermNonNative.new 1 16 4096 (2 ^ 64 - 2 ^ 32 + 1)) :=
  summandFormulations_agree_below_full_width 64
    (DecompositionTermNonNative.new 1 16 4096 (2 ^ 64 - 2 ^ 32 + 1))
    (by decide) (by decide) (by decide)

/-- C8: the whole subsystem is deterministic and pure: both decomposers
yield identical term sequences on identical `(theta, base_log, level_count,
q)` inputs, and the accessors and summands of equal terms are identical. -/
theorem subsystem_deterministic (W1 W2 b1 b2 l1 l2 q1 q2 th1 th2 : Nat)
    (hW : W1 = W2) (hb : b1 = b2) (hl : l1 = l2) (hq : q1 = q2) (hth : th1 = th2) :
    SignedDecomposer.decompose W1 b1 l1 th1 = SignedDecomposer.decompose W2 b2 l2 th2 ∧
    SignedDecomposerNonNative.decompose W1 b1 l1 q1 th1 =
      SignedDecomposerNonNative.decompose W2 b2 l2 q2 th2 ∧
    (∀ t : DecompositionTerm,
      (t.value, t.level, t.to_recomposition_summand W1) =
        (t.value, t.level, t.to_recomposition_summand W1)) ∧
    (∀ t : DecompositionTermNonNative,
      (t.value, t.level, t.to_recomposition_summand W1) =
        (t.value, t.level, t.to_recomposition_summand W1)) := by
  subst hW hb hl hq hth
  exact ⟨rfl, rfl, fun _ => rfl, fun _ => rfl⟩

/-- Witness for C8 at the native doc-test inputs. -/
theorem subsystem_deterministic_witness :
    SignedDecomposer.decompose 32 4 3 (2 ^ 19) = SignedDecomposer.decompose 32 4 3 (2 ^ 19) ∧
    SignedDecomposerNonNative.decompose 32 4 3 (2 ^ 32 - 5) (2 ^ 19) =
      SignedDecomposerNonNative.decompose 32 4 3 (2 ^ 32 - 5) (2 ^ 19) ∧
    (∀ t : DecompositionTerm,
      (t.value, t.level, t.to_recomposition_summand 32) =
        (t.value, t.level, t.to_recomposition_summand 32)) ∧
    (∀ t : DecompositionTermNonNative,
      (t.value, t.level, t.to_recomposition_summand 32) =
        (t.value, t.level, t.to_recomposition_summand 32)) :=
  subsystem_deterministic 32 32 4 4 3 3 (2 ^ 32 - 5) (2 ^ 32 - 5) (2 ^ 19) (2 ^ 19)
    rfl rfl rfl rfl rfl

/-- C9: terms are plain immutable records: the constructor stores exactly
its arguments and the accessors return exactly the stored fields, with no
effect on the term (all accessors are pure functions of the term). -/
theorem term_accessors_return_stored_fields :
    ∀ level base_log value q : Nat,
      (DecompositionTerm.new level base_log value).value = value ∧
      (DecompositionTerm.new level base_log value).level = level ∧
      (DecompositionTerm.new level base_log value).base_log = base_log ∧
      (DecompositionTermNonNative.new level base_log value q).value = value ∧
      (DecompositionTermNonNative.new level base_log value q).level = level ∧
      (DecompositionTermNonNative.new level base_log value q).base_log = base_log ∧
      (DecompositionTermNonNative.new level base_log value q).ciphertext_modulus = q :=
  fun _ _ _ _ => ⟨rfl, rfl, rfl, rfl, rfl, rfl, rfl⟩

/-- C10: the native summand depends only on the low `base_log * level` bits
of the stored value: terms with the same level and base_log whose values
are congruent modulo `2 ^ (base_log * level)` have equal summands. -/
theorem nativeSummand_depends_on_low_bits (W : Nat) (t u : DecompositionTerm)
    (hlev : t.level = u.level) (hb : t.base_log = u.base_log)
    (h1 : 1 ≤ t.base_log * t.level) (h2 : t.base_log * t.level ≤ W)
    (hcong : t.value % 2 ^ (t.base_log * t.level) = u.value % 2 ^ (t.base_log * t.level)) :
    t.to_recomposition_summand W = u.to_recomposition_summand W := by
  unfold DecompositionTerm.to_recomposition_summand
  rw [← hlev, ← hb]
  have key : ∀ v : Nat, v * 2 ^ (W - t.base_log * t.level) % 2 ^ W =
      v % 2 ^ (t.base_log * t.level) * 2 ^ (W - t.base_log * t.level) := by
    intro v
    have hsplit : (2 : Nat) ^ W = 2 ^ (t.base_log * t.level) * 2 ^ (W - t.base_log * t.level) := by
      rw [← pow_add]
      congr 1
      omega
    rw [hsplit, Nat.mul_mod_mul_right]
  rw [key, key, hcong]

/-- Witness for C10: values `1` and `2 ^ 12 + 1` agree modulo `2 ^ 12`, so
the corresponding terms at level 3 with base_log 4 over 32 bits have equal
summands. -/
theorem nativeSummand_depends_on_low_bits_witness :
    (DecompositionTerm.new 3 4 1).to_recomposition_summand 32 =
      (DecompositionTerm.new 3 4 (2 ^ 12 + 1)).to_recomposition_summand 32 :=
  nativeSummand_depends_on_low_bits 32 (DecompositionTerm.new 3 4 1)
    (DecompositionTerm.new 3 4 (2 ^ 12 + 1)) rfl rfl (by decide) (by decide) (by decide)
